import Mathlib

/-!
Verification of the Logic Tensor Networks (LTN) fuzzy-operator semantics and
tensor-broadcasting bookkeeping, as described by the repository's specification
and exercised by the notebooks under src/ (the tutorial on grounding
non-logical symbols and the multiclass-multilabel classification example).

The repository ships only notebooks that call the `logictensornetworks`
library (`ltn.fuzzy_ops`, `ltn.Wrapper_Connective`, `ltn.Wrapper_Quantifier`,
`ltn.constant`, `ltn.variable`, predicate/function application); the library
module itself is not part of the sources here, so its operations are modelled
from the specification's description of them: the fuzzy-logic operator
semantics (standard negation, product t-norm, probabilistic sum, Reichenbach
implication), the p-mean-error quantifier aggregator, and the
tensor-broadcasting bookkeeping that tracks which axis of a result tensor
corresponds to which logical variable.
-/

namespace LTN

/-- Modelled from the spec: the standard fuzzy negation `Not_Std` of
`ltn.fuzzy_ops` (the module is not under src/), mapping a truth value `a`
to `1 - a`. -/
noncomputable def Not_Std (a : ℝ) : ℝ := 1 - a

/-- Modelled from the spec: the product t-norm conjunction `And_Prod` of
`ltn.fuzzy_ops` (the module is not under src/), mapping truth values
`a`, `b` to their product. -/
noncomputable def And_Prod (a b : ℝ) : ℝ := a * b

/-- Modelled from the spec: the probabilistic-sum disjunction `Or_ProbSum`
of `ltn.fuzzy_ops` (the module is not under src/), mapping truth values
`a`, `b` to `a + b - a * b`. -/
noncomputable def Or_ProbSum (a b : ℝ) : ℝ := a + b - a * b

/-- Modelled from the spec: the Reichenbach implication
`Implies_Reichenbach` of `ltn.fuzzy_ops` (the module is not under src/),
mapping truth values `a`, `b` to `1 - a + a * b`. -/
noncomputable def Implies_Reichenbach (a b : ℝ) : ℝ := 1 - a + a * b

/-- Modelled from the spec: the p-mean-error aggregator `Aggreg_pMeanError`
of `ltn.fuzzy_ops` (the module is not under src/).  On a batch of truth
values `x_1, ..., x_n` it returns `1 - ((1/n) * Σ (1 - x_i)^p)^(1/p)`,
a differentiable approximation of universal quantification.  The power is
the real power `Real.rpow`. -/
noncomputable def Aggreg_pMeanError (p : ℝ) (xs : List ℝ) : ℝ :=
  1 - ((xs.map fun x => (1 - x) ^ p).sum / (xs.length : ℝ)) ^ (1 / p)

/-- Modelled from the spec: the universal quantifier
`ltn.Wrapper_Quantifier(ltn.fuzzy_ops.Aggreg_pMeanError(p), semantics="forall")`
(the wrapper is not under src/): it aggregates the batch of truth values
obtained by evaluating the body on each individual of the quantified
variable with the p-mean-error aggregator, producing one truth value. -/
noncomputable def Forall (p : ℝ) (xs : List ℝ) : ℝ := Aggreg_pMeanError p xs

/-- Syntax of the fuzzy formulas built by the notebooks: atomic truth values
produced by predicates, the four connectives, and the universal quantifier
over a batch of individuals.  A quantified formula `all p fs` records the
aggregator's exponent `p` together with the list of instantiations of its
body on each individual of the quantified variable (the batched evaluation
performed by the broadcasting layer). -/
inductive Formula where
  | atom (v : ℝ)
  | not (f : Formula)
  | and (f g : Formula)
  | or (f g : Formula)
  | implies (f g : Formula)
  | all (p : ℝ) (fs : List Formula)

/-- Modelled from the spec: satisfaction-level evaluation of a formula, with
the connectives grounded by `Not_Std`, `And_Prod`, `Or_ProbSum`,
`Implies_Reichenbach` and the universal quantifier by `Aggreg_pMeanError`
(the `ltn.fuzzy_ops` module and the wrappers are not under src/). -/
noncomputable def Formula.eval : Formula → ℝ
  | .atom v => v
  | .not f => Not_Std f.eval
  | .and f g => And_Prod f.eval g.eval
  | .or f g => Or_ProbSum f.eval g.eval
  | .implies f g => Implies_Reichenbach f.eval g.eval
  | .all p fs => Aggreg_pMeanError p (fs.attach.map fun x => x.1.eval)
termination_by f => sizeOf f
decreasing_by
  all_goals simp_wf
  all_goals try omega
  have := List.sizeOf_lt_of_mem x.2
  omega

/-- A formula is well-formed when every atomic predicate value lies in [0,1]
and every quantifier exponent satisfies `p ≥ 1`. -/
inductive Formula.Bounded : Formula → Prop where
  | atom {v : ℝ} : 0 ≤ v → v ≤ 1 → Formula.Bounded (.atom v)
  | not {f : Formula} : Formula.Bounded f → Formula.Bounded (.not f)
  | and {f g : Formula} : Formula.Bounded f → Formula.Bounded g →
      Formula.Bounded (.and f g)
  | or {f g : Formula} : Formula.Bounded f → Formula.Bounded g →
      Formula.Bounded (.or f g)
  | implies {f g : Formula} : Formula.Bounded f → Formula.Bounded g →
      Formula.Bounded (.implies f g)
  | all {p : ℝ} {fs : List Formula} : 1 ≤ p → (∀ f ∈ fs, Formula.Bounded f) →
      Formula.Bounded (.all p fs)

/-- An argument passed to an LTN predicate or function: either a constant
(a single individual) or a labelled variable (a sequence of individuals). -/
inductive LtnArg (α : Type) where
  | const (v : α)
  | var (label : String) (individuals : List α)

/-- The labels of the variable arguments, in argument order; constants
contribute nothing. -/
def argDoms {α : Type} : List (LtnArg α) → List String
  | [] => []
  | LtnArg.const _ :: rest => argDoms rest
  | LtnArg.var l _ :: rest => l :: argDoms rest

/-- First-occurrence deduplication of a list of labels, keeping out of the
result every label already in `seen`. -/
def dedupFirst : List String → List String → List String
  | _, [] => []
  | seen, d :: ds => if d ∈ seen then dedupFirst seen ds else d :: dedupFirst (d :: seen) ds

/-- Modelled from the spec: the `active_doms` attribute the broadcasting
layer attaches to a result tensor (the `logictensornetworks` module is not
under src/) — the labels of the variables appearing among the arguments, one
axis per distinct variable, in order of first occurrence. -/
def active_doms {α : Type} (args : List (LtnArg α)) : List String :=
  dedupFirst [] (argDoms args)

/-- The number of individuals held by the first variable argument carrying a
given label. -/
def domSize {α : Type} : List (LtnArg α) → String → Nat
  | [], _ => 0
  | LtnArg.const _ :: rest, d => domSize rest d
  | LtnArg.var l vs :: rest, d => if l = d then vs.length else domSize rest d

/-- Modelled from the spec: the sizes of the leading axes of the result
tensor of a predicate/function application, one axis per active variable
(the `logictensornetworks` module is not under src/).  Trailing axes, which
belong to the outcome values themselves, are not modelled: the outcome type
is kept abstract. -/
def resultShape {α : Type} (args : List (LtnArg α)) : List Nat :=
  (active_doms args).map (domSize args)

/-- The lengths of the individual sequences of the variable arguments, in
argument order. -/
def varSizes {α : Type} : List (LtnArg α) → List Nat
  | [] => []
  | LtnArg.const _ :: rest => varSizes rest
  | LtnArg.var _ vs :: rest => vs.length :: varSizes rest

/-- Position of a label in a list of labels (0 when absent). -/
def domIndex : List String → String → Nat
  | [], _ => 0
  | d :: ds, l => if d = l then 0 else domIndex ds l + 1

/-- The concrete individuals selected for each argument at a given
multi-index `ix` over the axes named by `doms`: a constant contributes its
own value, a variable with label `l` contributes its `ix_j`-th individual
where `j` is the axis of `l`. -/
def selectArgs {α : Type} [Inhabited α] (doms : List String) (ix : List Nat) :
    List (LtnArg α) → List α
  | [] => []
  | LtnArg.const v :: rest => v :: selectArgs doms ix rest
  | LtnArg.var l vs :: rest =>
      vs.getD (ix.getD (domIndex doms l) 0) default :: selectArgs doms ix rest

/-- Modelled from the spec: the entry at multi-index `ix` of the broadcast
result tensor of applying a predicate or function `f` to the arguments (the
`logictensornetworks` module is not under src/): `f` evaluated on the
individuals that the multi-index selects from each argument. -/
def applyEntry {α β : Type} [Inhabited α] (f : List α → β)
    (args : List (LtnArg α)) (ix : List Nat) : β :=
  f (selectArgs (active_doms args) ix args)

/-- Modelled from the spec: the grounding of an LTN constant built by
`ltn.constant(value, trainable=...)` (the `logictensornetworks` module is
not under src/): a tensor holding the given value, flagged trainable or
not. -/
structure LtnConstant (α : Type) where
  value : α
  trainable : Bool

/-- Modelled from the spec: the `ltn.constant` builder (the
`logictensornetworks` module is not under src/), mapping a value to its
grounding as a tensor. -/
def constant {α : Type} (v : α) (trainable : Bool) : LtnConstant α :=
  ⟨v, trainable⟩

/-- Modelled from the spec: querying the value of a grounded constant, as
done with `.numpy()` in the tutorial (the `logictensornetworks` module is
not under src/). -/
def LtnConstant.numpy {α : Type} (c : LtnConstant α) : α := c.value

end LTN

/-- C1: for a batch of truth values `x_1, ..., x_n` in [0,1] and an exponent
`p ≥ 1`, the universal quantifier grounded by the p-mean-error aggregator
returns `1 - ((1/n) * Σ (1 - x_i)^p)^(1/p)`, aggregating the whole batch
into one value. -/
theorem C1_forall_pMeanError (p : ℝ) (xs : List ℝ)
    (hx : ∀ x ∈ xs, 0 ≤ x ∧ x ≤ 1) (hp : 1 ≤ p) :
    LTN.Forall p xs =
      1 - ((1 / (xs.length : ℝ)) * (xs.map fun x => (1 - x) ^ p).sum) ^ (1 / p) := by
  unfold LTN.Forall LTN.Aggreg_pMeanError
  rw [one_div_mul_eq_div]

/-- Witness for C1 at the concrete batch `[1, 0]` with `p = 2`. -/
theorem C1_forall_pMeanError_witness :
    LTN.Forall 2 [1, 0] =
      1 - ((1 / (([1, 0] : List ℝ).length : ℝ)) *
        (([1, 0] : List ℝ).map fun x => (1 - x) ^ (2 : ℝ)).sum) ^ (1 / (2 : ℝ)) :=
  C1_forall_pMeanError 2 [1, 0]
    (by intro x hx; fin_cases hx <;> norm_num) (by norm_num)

/-- C3: on truth values in [0,1] the conjunction grounded by `And_Prod`
returns exactly the product `a * b`. -/
theorem C3_and_prod (a b : ℝ) (ha : 0 ≤ a ∧ a ≤ 1) (hb : 0 ≤ b ∧ b ≤ 1) :
    LTN.And_Prod a b = a * b := rfl

/-- Witness for C3 at `a = 1/2`, `b = 1`. -/
theorem C3_and_prod_witness : LTN.And_Prod (1 / 2) 1 = (1 / 2 : ℝ) * 1 :=
  C3_and_prod (1 / 2) 1 (by norm_num) (by norm_num)

/-- C4: on truth values in [0,1] the disjunction grounded by `Or_ProbSum`
returns exactly the probabilistic sum `a + b - a * b`. -/
theorem C4_or_probSum (a b : ℝ) (ha : 0 ≤ a ∧ a ≤ 1) (hb : 0 ≤ b ∧ b ≤ 1) :
    LTN.Or_ProbSum a b = a + b - a * b := rfl

/-- Witness for C4 at `a = 1/2`, `b = 1/4`. -/
theorem C4_or_probSum_witness :
    LTN.Or_ProbSum (1 / 2) (1 / 4) = (1 / 2 : ℝ) + 1 / 4 - (1 / 2) * (1 / 4) :=
  C4_or_probSum (1 / 2) (1 / 4) (by norm_num) (by norm_num)

/-- C5: on truth values in [0,1] the implication grounded by
`Implies_Reichenbach` returns exactly `1 - a + a * b`. -/
theorem C5_implies_reichenbach (a b : ℝ) (ha : 0 ≤ a ∧ a ≤ 1) (hb : 0 ≤ b ∧ b ≤ 1) :
    LTN.Implies_Reichenbach a b = 1 - a + a * b := rfl

/-- Witness for C5 at `a = 1/2`, `b = 1/4`. -/
theorem C5_implies_reichenbach_witness :
    LTN.Implies_Reichenbach (1 / 2) (1 / 4) = 1 - (1 / 2 : ℝ) + (1 / 2) * (1 / 4) :=
  C5_implies_reichenbach (1 / 2) (1 / 4) (by norm_num) (by norm_num)

/-- C8: on truth values in [0,1] the Reichenbach implication agrees with the
probabilistic sum of the standard negation of the antecedent with the
consequent: `Implies_Reichenbach a b = Or_ProbSum (Not_Std a) b`. -/
theorem C8_implies_eq_or_not (a b : ℝ) (ha : 0 ≤ a ∧ a ≤ 1) (hb : 0 ≤ b ∧ b ≤ 1) :
    LTN.Implies_Reichenbach a b = LTN.Or_ProbSum (LTN.Not_Std a) b := by
  unfold LTN.Implies_Reichenbach LTN.Or_ProbSum LTN.Not_Std
  ring

/-- Witness for C8 at `a = 1/2`, `b = 1/4`. -/
theorem C8_implies_eq_or_not_witness :
    LTN.Implies_Reichenbach (1 / 2) (1 / 4) =
      LTN.Or_ProbSum (LTN.Not_Std (1 / 2)) (1 / 4) :=
  C8_implies_eq_or_not (1 / 2) (1 / 4) (by norm_num) (by norm_num)

/-- The evaluation of a quantified formula unfolds to the p-mean-error
aggregation of the evaluations of its instantiations. -/
lemma LTN.Formula.eval_all (p : ℝ) (fs : List LTN.Formula) :
    (LTN.Formula.all p fs).eval =
      LTN.Aggreg_pMeanError p (fs.map LTN.Formula.eval) := by
  rw [LTN.Formula.eval]
  congr 1
  rw [List.attach_map_val]

/-- The p-mean-error aggregator maps a batch of truth values in [0,1] to a
truth value in [0,1], for any exponent `p ≥ 1`. -/
lemma LTN.aggreg_pMeanError_bounds (p : ℝ) (hp : 1 ≤ p) (xs : List ℝ)
    (hx : ∀ x ∈ xs, 0 ≤ x ∧ x ≤ 1) :
    0 ≤ LTN.Aggreg_pMeanError p xs ∧ LTN.Aggreg_pMeanError p xs ≤ 1 := by
  have hp0 : (0 : ℝ) < p := lt_of_lt_of_le one_pos hp
  have herr : ∀ y ∈ xs.map fun x => (1 - x) ^ p, 0 ≤ y ∧ y ≤ 1 := by
    intro y hy
    rcases List.mem_map.mp hy with ⟨x, hxmem, rfl⟩
    rcases hx x hxmem with ⟨h0, h1⟩
    constructor
    · exact Real.rpow_nonneg (by linarith) p
    · exact Real.rpow_le_one (by linarith) (by linarith) (le_of_lt hp0)
  set l := xs.map fun x => (1 - x) ^ p with hl
  have hsum0 : 0 ≤ l.sum := List.sum_nonneg fun y hy => (herr y hy).1
  have hsumle : l.sum ≤ (l.length : ℝ) := by
    have := List.sum_le_card_nsmul l 1 fun y hy => (herr y hy).2
    simpa using this
  have hlen : l.length = xs.length := List.length_map xs _
  have hmean0 : 0 ≤ l.sum / (xs.length : ℝ) :=
    div_nonneg hsum0 (Nat.cast_nonneg _)
  have hmean1 : l.sum / (xs.length : ℝ) ≤ 1 := by
    rcases Nat.eq_zero_or_pos xs.length with h0 | hpos
    · have hxs : xs = [] := List.length_eq_zero.mp h0
      have : l = [] := by simp [hl, hxs]
      simp [this]
    · rw [div_le_one (by exact_mod_cast hpos)]
      calc l.sum ≤ (l.length : ℝ) := hsumle
        _ = (xs.length : ℝ) := by rw [hlen]
  have hpow0 : 0 ≤ (l.sum / (xs.length : ℝ)) ^ (1 / p) :=
    Real.rpow_nonneg hmean0 _
  have hpow1 : (l.sum / (xs.length : ℝ)) ^ (1 / p) ≤ 1 :=
    Real.rpow_le_one hmean0 hmean1 (by positivity)
  unfold LTN.Aggreg_pMeanError
  constructor <;> [linarith; linarith]

/-- C2: for every formula whose atomic predicate values lie in [0,1],
evaluating it with the connectives `Not_Std`, `And_Prod`, `Or_ProbSum`,
`Implies_Reichenbach` and aggregating quantifiers with `Aggreg_pMeanError`
(exponents `p ≥ 1`) yields a satisfaction level in [0,1]: the unit interval
is closed under every connective and under quantifier aggregation. -/
theorem C2_satisfaction_in_unit_interval (f : LTN.Formula) (h : f.Bounded) :
    0 ≤ f.eval ∧ f.eval ≤ 1 := by
  induction h with
  | atom h0 h1 => rw [LTN.Formula.eval]; exact ⟨h0, h1⟩
  | not hf ih =>
      rw [LTN.Formula.eval]; unfold LTN.Not_Std
      exact ⟨by linarith [ih.1, ih.2], by linarith [ih.1, ih.2]⟩
  | and hf hg ihf ihg =>
      rw [LTN.Formula.eval]; unfold LTN.And_Prod
      exact ⟨mul_nonneg ihf.1 ihg.1, mul_le_one₀ ihf.2 ihg.1 ihg.2⟩
  | or hf hg ihf ihg =>
      rw [LTN.Formula.eval]; unfold LTN.Or_ProbSum
      constructor <;> nlinarith [ihf.1, ihf.2, ihg.1, ihg.2]
  | implies hf hg ihf ihg =>
      rw [LTN.Formula.eval]; unfold LTN.Implies_Reichenbach
      constructor <;> nlinarith [ihf.1, ihf.2, ihg.1, ihg.2]
  | all hp hfs ih =>
      rw [LTN.Formula.eval]
      apply LTN.aggreg_pMeanError_bounds _ hp
      intro x hx
      rcases List.mem_map.mp hx with ⟨⟨g, hg⟩, hmem, rfl⟩
      exact ih g hg

/-- Witness for C2 on the concrete formula
`forall [implies (atom 1/2) (atom 1)]` with exponent 2. -/
theorem C2_satisfaction_in_unit_interval_witness :
    0 ≤ (LTN.Formula.all 2
          [LTN.Formula.implies (LTN.Formula.atom (1 / 2)) (LTN.Formula.atom 1)]).eval ∧
      (LTN.Formula.all 2
          [LTN.Formula.implies (LTN.Formula.atom (1 / 2)) (LTN.Formula.atom 1)]).eval ≤ 1 :=
  C2_satisfaction_in_unit_interval _
    (LTN.Formula.Bounded.all (by norm_num)
      (by
        intro f hf
        fin_cases hf
        exact LTN.Formula.Bounded.implies
          (LTN.Formula.Bounded.atom (by norm_num) (by norm_num))
          (LTN.Formula.Bounded.atom (by norm_num) (by norm_num))))

/-- A mapped list sum rewritten as a sum over the index type of the list. -/
lemma LTN.list_map_sum_eq_fin (xs : List ℝ) (g : ℝ → ℝ) :
    (xs.map g).sum = ∑ i : Fin xs.length, g (xs.get i) := by
  conv_lhs => rw [← List.ofFn_get xs]
  rw [List.map_ofFn, List.sum_ofFn]
  rfl

/-- The p-mean-error aggregator written as a uniformly weighted sum over the
batch indices. -/
lemma LTN.aggreg_as_weighted_sum (r : ℝ) (xs : List ℝ) :
    LTN.Aggreg_pMeanError r xs =
      1 - (∑ i : Fin xs.length, ((xs.length : ℝ))⁻¹ * (1 - xs.get i) ^ r) ^ (1 / r) := by
  unfold LTN.Aggreg_pMeanError
  rw [LTN.list_map_sum_eq_fin xs fun x => (1 - x) ^ r]
  rw [Finset.sum_div]
  congr 2
  apply Finset.sum_congr rfl
  intro i _
  rw [div_eq_mul_inv, mul_comm]

/-- C9: on a fixed non-empty batch of truth values in [0,1], the universal
aggregate computed by `Aggreg_pMeanError` is antitone in the exponent: for
`1 ≤ p ≤ q` the value at `q` is at most the value at `p`, so raising the
exponent (as the notebook does with `p = 5` for the queries `phi1`, `phi2`,
`phi3` versus `p = 2` for training) can only make the universal
quantification stricter. -/
theorem C9_pMeanError_antitone_in_p (xs : List ℝ) (hne : xs ≠ [])
    (hx : ∀ x ∈ xs, 0 ≤ x ∧ x ≤ 1) (p q : ℝ) (hp : 1 ≤ p) (hpq : p ≤ q) :
    LTN.Aggreg_pMeanError q xs ≤ LTN.Aggreg_pMeanError p xs := by
  have hp0 : (0 : ℝ) < p := lt_of_lt_of_le one_pos hp
  have hq0 : (0 : ℝ) < q := lt_of_lt_of_le hp0 hpq
  have hn : 0 < xs.length := List.length_pos.mpr hne
  have hnR : (0 : ℝ) < (xs.length : ℝ) := by exact_mod_cast hn
  set n := xs.length with hndef
  set w : Fin n → ℝ := fun _ => ((n : ℝ))⁻¹ with hw
  set e : Fin n → ℝ := fun i => 1 - xs.get i with he
  have he0 : ∀ i, 0 ≤ e i := by
    intro i
    have := (hx (xs.get i) (xs.get_mem i i.2)).2
    simp only [he]
    linarith
  have hwsum : ∑ i : Fin n, w i = 1 := by
    simp only [hw]
    rw [Finset.sum_const, Finset.card_univ, Fintype.card_fin, nsmul_eq_mul]
    field_simp
  set A : ℝ := ∑ i : Fin n, ((n : ℝ))⁻¹ * (e i) ^ p with hA
  set B : ℝ := ∑ i : Fin n, ((n : ℝ))⁻¹ * (e i) ^ q with hB
  have hA0 : 0 ≤ A := by
    apply Finset.sum_nonneg
    intro i _
    exact mul_nonneg (by positivity) (Real.rpow_nonneg (he0 i) _)
  have hB0 : 0 ≤ B := by
    apply Finset.sum_nonneg
    intro i _
    exact mul_nonneg (by positivity) (Real.rpow_nonneg (he0 i) _)
  have hqp1 : 1 ≤ q / p := (one_le_div hp0).mpr hpq
  have hmain : A ^ (q / p) ≤ B := by
    have h := Real.rpow_arith_mean_le_arith_mean_rpow Finset.univ w
      (fun i => (e i) ^ p) (fun i _ => by positivity)
      hwsum (fun i _ => Real.rpow_nonneg (he0 i) _) hqp1
    calc A ^ (q / p) ≤ ∑ i : Fin n, w i * ((e i) ^ p) ^ (q / p) := h
      _ = B := by
          apply Finset.sum_congr rfl
          intro i _
          congr 1
          rw [← Real.rpow_mul (he0 i)]
          congr 1
          field_simp
  have hstep : A ^ (1 / p) ≤ B ^ (1 / q) := by
    have h2 : (A ^ (q / p)) ^ (1 / q) ≤ B ^ (1 / q) :=
      Real.rpow_le_rpow (Real.rpow_nonneg hA0 _) hmain (by positivity)
    calc A ^ (1 / p) = (A ^ (q / p)) ^ (1 / q) := by
          rw [← Real.rpow_mul hA0]
          congr 1
          field_simp
      _ ≤ B ^ (1 / q) := h2
  rw [LTN.aggreg_as_weighted_sum p xs, LTN.aggreg_as_weighted_sum q xs]
  have hAA : (∑ i : Fin xs.length, ((xs.length : ℝ))⁻¹ * (1 - xs.get i) ^ p) = A := rfl
  have hBB : (∑ i : Fin xs.length, ((xs.length : ℝ))⁻¹ * (1 - xs.get i) ^ q) = B := rfl
  rw [hAA, hBB]
  linarith

/-- Witness for C9 on the batch `[1/2]` with exponents `p = 2` and `q = 5`,
the two exponents used by the notebook. -/
theorem C9_pMeanError_antitone_in_p_witness :
    LTN.Aggreg_pMeanError 5 [(1 / 2 : ℝ)] ≤ LTN.Aggreg_pMeanError 2 [(1 / 2 : ℝ)] :=
  C9_pMeanError_antitone_in_p [(1 / 2 : ℝ)] (by simp)
    (by intro x hx; fin_cases hx <;> norm_num) 2 5 (by norm_num) (by norm_num)

/-- First-occurrence deduplication leaves a duplicate-free list of labels
disjoint from `seen` unchanged. -/
lemma LTN.dedupFirst_of_nodup : ∀ (l seen : List String), l.Nodup →
    (∀ d ∈ l, d ∉ seen) → LTN.dedupFirst seen l = l := by
  intro l
  induction l with
  | nil => intro seen _ _; rfl
  | cons d ds ih =>
      intro seen hnd hdisj
      rw [LTN.dedupFirst]
      rw [if_neg (hdisj d (List.mem_cons_self d ds))]
      congr 1
      apply ih (d :: seen) (List.nodup_cons.mp hnd).2
      intro e he
      rw [List.mem_cons]
      push_neg
      exact ⟨fun hed => (List.nodup_cons.mp hnd).1 (hed ▸ he),
             hdisj e (List.mem_cons_of_mem d he)⟩

/-- The variable labels of a list of purely variable arguments are the pair
labels, in order. -/
lemma LTN.argDoms_map_var {α : Type} (pairs : List (String × List α)) :
    LTN.argDoms (pairs.map fun pr => LTN.LtnArg.var pr.1 pr.2) = pairs.map Prod.fst := by
  induction pairs with
  | nil => rfl
  | cons p ps ih => simp [LTN.argDoms, ih]

/-- With pairwise-distinct variable labels, the axis sizes read off label by
label are the individual counts of the variables in argument order. -/
lemma LTN.map_domSize_eq_varSizes {α : Type} :
    ∀ args : List (LTN.LtnArg α), (LTN.argDoms args).Nodup →
      (LTN.argDoms args).map (LTN.domSize args) = LTN.varSizes args := by
  intro args
  induction args with
  | nil => intro _; rfl
  | cons a rest ih =>
      cases a with
      | const v =>
          intro hnd
          have hfun : ∀ d ∈ LTN.argDoms rest,
              LTN.domSize (LTN.LtnArg.const v :: rest) d = LTN.domSize rest d := by
            intro d _; rfl
          rw [show LTN.argDoms (LTN.LtnArg.const v :: rest) = LTN.argDoms rest from rfl,
              List.map_congr_left hfun]
          exact ih hnd
      | var l vs =>
          intro hnd
          have h0 : LTN.argDoms (LTN.LtnArg.var l vs :: rest) = l :: LTN.argDoms rest := rfl
          rw [h0] at hnd
          rcases List.nodup_cons.mp hnd with ⟨hnotmem, hndrest⟩
          rw [h0, List.map_cons]
          have hhead : LTN.domSize (LTN.LtnArg.var l vs :: rest) l = vs.length := by
            rw [LTN.domSize, if_pos rfl]
          have htail : ∀ d ∈ LTN.argDoms rest,
              LTN.domSize (LTN.LtnArg.var l vs :: rest) d = LTN.domSize rest d := by
            intro d hd
            rw [LTN.domSize]
            rw [if_neg (by intro h; subst h; exact hnotmem hd)]
          rw [hhead, List.map_congr_left htail]
          rw [show LTN.varSizes (LTN.LtnArg.var l vs :: rest) =
                vs.length :: LTN.varSizes rest from rfl]
          rw [ih hndrest]

/-- In a duplicate-free label list, the axis of the j-th label is j. -/
lemma LTN.domIndex_nodup_get : ∀ (l : List String), l.Nodup →
    ∀ j (h : j < l.length), LTN.domIndex l (l.get ⟨j, h⟩) = j := by
  intro l
  induction l with
  | nil => intro _ j h; exact absurd h (Nat.not_lt_zero j)
  | cons d ds ih =>
      intro hnd j h
      rcases List.nodup_cons.mp hnd with ⟨hnotmem, hndrest⟩
      cases j with
      | zero => simp [LTN.domIndex]
      | succ k =>
          have hk : k < ds.length := Nat.lt_of_succ_lt_succ h
          have hget : (d :: ds).get ⟨k + 1, h⟩ = ds.get ⟨k, hk⟩ := rfl
          rw [hget, LTN.domIndex]
          rw [if_neg (by intro heq; subst heq; exact hnotmem (ds.get_mem k hk))]
          rw [ih hndrest k hk]

/-- Selecting individuals for purely variable arguments whose labels sit at
consecutive axes starting at `off` picks, for the j-th variable, the
individual indexed by the `(off+j)`-th component of the multi-index. -/
lemma LTN.selectArgs_map_var {α : Type} [Inhabited α]
    (doms : List String) (ix : List Nat) :
    ∀ (pairs : List (String × List α)) (off : Nat),
      (∀ j (h : j < pairs.length), LTN.domIndex doms (pairs.get ⟨j, h⟩).1 = off + j) →
      LTN.selectArgs doms ix (pairs.map fun pr => LTN.LtnArg.var pr.1 pr.2) =
        List.ofFn (fun j : Fin pairs.length =>
          (pairs.get j).2.getD (ix.getD (off + j) 0) default) := by
  intro pairs
  induction pairs with
  | nil => intro off _; rfl
  | cons pr rest ih =>
      intro off hidx
      have hrest : ∀ j (h : j < rest.length),
          LTN.domIndex doms (rest.get ⟨j, h⟩).1 = off + 1 + j := by
        intro j hj
        have h2 := hidx (j + 1) (Nat.succ_lt_succ hj)
        have h3 : ((pr :: rest).get ⟨j + 1, Nat.succ_lt_succ hj⟩) = rest.get ⟨j, hj⟩ := rfl
        rw [h3] at h2
        rw [h2]
        omega
      rw [List.map_cons, LTN.selectArgs, List.ofFn_succ]
      congr 1
      · have h0 := hidx 0 (Nat.succ_pos rest.length)
        have h1 : ((pr :: rest).get ⟨0, Nat.succ_pos rest.length⟩) = pr := rfl
        rw [h1] at h0
        rw [h0]
        norm_num
      · rw [ih (off + 1) hrest]
        apply congrArg
        funext j
        have hget : ((pr :: rest).get (Fin.succ j)) = rest.get j := rfl
        have hix2 : off + ((Fin.succ j : Fin (rest.length + 1)) : ℕ) = off + 1 + (j : ℕ) := by
          rw [Fin.val_succ]
          omega
        rw [hget, hix2]

/-- The individual counts of purely variable arguments are the lengths of
the pair sequences. -/
lemma LTN.varSizes_map_var {α : Type} (pairs : List (String × List α)) :
    LTN.varSizes (pairs.map fun pr => LTN.LtnArg.var pr.1 pr.2) =
      pairs.map fun pr => pr.2.length := by
  induction pairs with
  | nil => rfl
  | cons p ps ih => simp [LTN.varSizes, ih]

/-- C6: applying a predicate or function to k variables with
pairwise-distinct labels holding n_1, ..., n_k individuals yields a result
whose `active_doms` attribute lists exactly the k labels in axis order,
whose first k axes have sizes n_1, ..., n_k, and whose entry at multi-index
(i_1, ..., i_k) is the evaluation on the i_1-th, ..., i_k-th individuals of
the respective variables. -/
theorem C6_variables_broadcast {α β : Type} [Inhabited α] (f : List α → β)
    (pairs : List (String × List α)) (hnd : (pairs.map Prod.fst).Nodup) (ix : List Nat) :
    LTN.active_doms (pairs.map fun pr => LTN.LtnArg.var pr.1 pr.2) = pairs.map Prod.fst ∧
    LTN.resultShape (pairs.map fun pr => LTN.LtnArg.var pr.1 pr.2) =
      pairs.map (fun pr => pr.2.length) ∧
    LTN.applyEntry f (pairs.map fun pr => LTN.LtnArg.var pr.1 pr.2) ix =
      f (List.ofFn fun j : Fin pairs.length =>
          (pairs.get j).2.getD (ix.getD j 0) default) := by
  have hdoms : LTN.argDoms (pairs.map fun pr => LTN.LtnArg.var pr.1 pr.2) =
      pairs.map Prod.fst := LTN.argDoms_map_var pairs
  have hactive : LTN.active_doms (pairs.map fun pr => LTN.LtnArg.var pr.1 pr.2) =
      pairs.map Prod.fst := by
    unfold LTN.active_doms
    rw [hdoms]
    exact LTN.dedupFirst_of_nodup _ [] hnd (by intro d _; exact List.not_mem_nil d)
  refine ⟨hactive, ?_, ?_⟩
  · unfold LTN.resultShape
    rw [hactive, ← hdoms]
    rw [LTN.map_domSize_eq_varSizes _ (by rw [hdoms]; exact hnd)]
    exact LTN.varSizes_map_var pairs
  · unfold LTN.applyEntry
    congr 1
    rw [hactive]
    rw [LTN.selectArgs_map_var (pairs.map Prod.fst) ix pairs 0 ?_]
    · apply congrArg
      funext j
      congr 2
      omega
    · intro j hj
      have hget : (pairs.get ⟨j, hj⟩).1 =
          (pairs.map Prod.fst).get ⟨j, by rw [List.length_map]; exact hj⟩ := by
        simp [List.get_map]
      rw [hget, LTN.domIndex_nodup_get _ hnd]
      omega

/-- Witness for C6: two variables `x` (2 individuals) and `y`
(3 individuals), summed, at multi-index (1, 2). -/
theorem C6_variables_broadcast_witness :
    LTN.active_doms (([("x", [10, 20]), ("y", [1, 2, 3])] : List (String × List ℕ)).map
        fun pr => LTN.LtnArg.var pr.1 pr.2) =
      ([("x", [10, 20]), ("y", [1, 2, 3])] : List (String × List ℕ)).map Prod.fst ∧
    LTN.resultShape (([("x", [10, 20]), ("y", [1, 2, 3])] : List (String × List ℕ)).map
        fun pr => LTN.LtnArg.var pr.1 pr.2) =
      ([("x", [10, 20]), ("y", [1, 2, 3])] : List (String × List ℕ)).map
        (fun pr => pr.2.length) ∧
    LTN.applyEntry (fun l => l.sum)
        (([("x", [10, 20]), ("y", [1, 2, 3])] : List (String × List ℕ)).map
          fun pr => LTN.LtnArg.var pr.1 pr.2) [1, 2] =
      (fun l : List ℕ => l.sum)
        (List.ofFn fun j : Fin ([("x", [10, 20]), ("y", [1, 2, 3])] :
            List (String × List ℕ)).length =>
          (([("x", [10, 20]), ("y", [1, 2, 3])] : List (String × List ℕ)).get j).2.getD
            (([1, 2] : List ℕ).getD j 0) default) :=
  C6_variables_broadcast (fun l => l.sum) [("x", [10, 20]), ("y", [1, 2, 3])]
    (by decide) [1, 2]

/-- C10: when a predicate or function is applied to a mix of constants and
variables with pairwise-distinct labels, constants contribute no axis: the
`active_doms` attribute lists only the variable labels and the result has
exactly one axis per variable, sized by that variable's individual count. -/
theorem C10_constants_no_axis {α : Type} (args : List (LTN.LtnArg α))
    (hnd : (LTN.argDoms args).Nodup) :
    LTN.active_doms args = LTN.argDoms args ∧
      LTN.resultShape args = LTN.varSizes args := by
  have hactive : LTN.active_doms args = LTN.argDoms args :=
    LTN.dedupFirst_of_nodup _ [] hnd (by intro d _; exact List.not_mem_nil d)
  refine ⟨hactive, ?_⟩
  unfold LTN.resultShape
  rw [hactive]
  exact LTN.map_domSize_eq_varSizes args hnd

/-- Witness for C10 on the tutorial's example `P3([c1, y])`: one constant
and one variable `y` holding 5 individuals gives shape (5,) and
`active_doms` equal to just the label of `y`. -/
theorem C10_constants_no_axis_witness :
    LTN.active_doms [LTN.LtnArg.const (7 : ℕ), LTN.LtnArg.var "y" [1, 2, 3, 4, 5]] = ["y"] ∧
    LTN.resultShape [LTN.LtnArg.const (7 : ℕ), LTN.LtnArg.var "y" [1, 2, 3, 4, 5]] = [5] := by
  have h := C10_constants_no_axis
    [LTN.LtnArg.const (7 : ℕ), LTN.LtnArg.var "y" [1, 2, 3, 4, 5]] (by decide)
  exact ⟨h.1.trans (by decide), h.2.trans (by decide)⟩

/-- C7: grounding a constant built with `ltn.constant(v)` stores exactly
`v`, with both `trainable = false` and `trainable = true`, and querying the
grounded constant returns the data it was defined with: value-to-tensor and
back is a round-trip. -/
theorem C7_constant_roundtrip {α : Type} (v : α) :
    (LTN.constant v false).numpy = v ∧ (LTN.constant v false).trainable = false ∧
      (LTN.constant v true).numpy = v ∧ (LTN.constant v true).trainable = true :=
  ⟨rfl, rfl, rfl, rfl⟩
